import Mathlib

/-!
Verification of the weighted, no-immediate-repeat sampling engine of
`manual_shuffle` (file `src.py`): weight functions (`exp_star`,
`exp_star_recent`), the leftmost-strictly-greater binary search
(`binary_search_weight`), the cumulative-distribution construction and the
cooldown sampling loop of `weight_cdf_shuffle`.

Modelling conventions:
* Python floats are modelled by `ℚ`; the algorithms only add, divide and
  compare weights, so rational arithmetic mirrors them exactly.
* The `while left < right` loop of `binary_search_weight` is embedded with a
  fuel argument; fuel `right - left` is enough, and the top-level entry point
  passes `cumulative_weights.length`.
* A `Song` carries the two fields the weight functions read: `stars` and the
  precomputed whole-day age `(datetime.now() - song.date_added).days`.
* Fallible Python code is embedded in `Except String`: the normalization
  `[s / total_weight for s in sums]` raises `ZeroDivisionError` exactly when
  the list is non-empty and the total is zero, and `song_ids[index]` raises
  `IndexError` when the index is out of range.
* Python's slice `selected_tracks[-max_back:]` yields the whole list when
  `max_back = 0` (since `-0 == 0`); `py_slice_last` reproduces that quirk.
-/

namespace ManualShuffle

/-- The fields of `Song` read by the weight functions: `self.stars`
(integer rating, `# Default rating 1-10` in the source) and the whole-day age
`(datetime.now() - song.date_added).days` used by `exp_star_recent`. -/
structure Song where
  stars : ℤ
  ageDays : ℤ
deriving Repr, DecidableEq

/-- `def exp_star(song, b=2): return b ** (song.stars - 5)` -/
def exp_star (song : Song) (b : ℚ) : ℚ :=
  b ^ (song.stars - 5)

/-- `def exp_star_recent(song, b, days_back=365, weight_day=0.01)`:
`days = (datetime.now() - song.date_added).days`; if `song.stars == 5 and
days < days_back` return `exp_star(song, b) + (days_back - days) * weight_day`
else `exp_star(song, b)`. -/
def exp_star_recent (song : Song) (b : ℚ) (days_back : ℤ) (weight_day : ℚ) : ℚ :=
  if song.stars = 5 ∧ song.ageDays < days_back then
    exp_star song b + ((days_back - song.ageDays : ℤ) : ℚ) * weight_day
  else
    exp_star song b

/-- The `while left < right` loop of `binary_search_weight`, with fuel.
Each iteration: `mid = (left + right) // 2`; if
`cumulative_weights[mid] > target` then `right = mid` else `left = mid + 1`.
Any fuel `≥ right - left` reaches the loop's exit (the gap shrinks by at
least one per iteration). -/
def bs_go (cumulative_weights : List ℚ) (target : ℚ) : ℕ → ℕ → ℕ → ℕ
  | 0, left, _ => left
  | fuel + 1, left, right =>
    if left < right then
      let mid := (left + right) / 2
      if target < cumulative_weights.getD mid 0 then
        bs_go cumulative_weights target fuel left mid
      else
        bs_go cumulative_weights target fuel (mid + 1) right
    else
      left

/-- `binary_search_weight(cumulative_weights, target)`: find the leftmost
index where `cumulative_weights[index] > target`; starts from
`left = 0`, `right = len(cumulative_weights)`. -/
def binary_search_weight (cumulative_weights : List ℚ) (target : ℚ) : ℕ :=
  bs_go cumulative_weights target cumulative_weights.length 0 cumulative_weights.length

/-- The cumulative-distribution construction of `weight_cdf_shuffle`
(pure part): `sums = [0]`; for each weight `sums.append(weight + sums[-1])`;
`sums.pop(0)`; `sums = [s / total_weight for s in sums]` with
`total_weight = sum(weights)`. -/
def build_sums (weights : List ℚ) : List ℚ :=
  ((List.scanl (· + ·) 0 weights).drop 1).map (fun s => s / weights.sum)

/-- The same construction as run by Python: the comprehension
`[s / total_weight for s in sums]` raises `ZeroDivisionError` on its first
element when `total_weight == 0`, so the run fails exactly when the weight
list is non-empty and its total is zero (an empty list performs no division
and yields `[]`). -/
def build_sums_run (weights : List ℚ) : Except String (List ℚ) :=
  if weights ≠ [] ∧ weights.sum = 0 then
    .error "ZeroDivisionError"
  else
    .ok (build_sums weights)

/-- Python's `l[-k:]` on a list: for `k ≥ 1` the last `min k l.length`
entries; for `k = 0` the whole list, because `-0 == 0` makes the slice
`l[0:]`. -/
def py_slice_last (l : List String) (k : ℕ) : List String :=
  if k = 0 then l else l.drop (l.length - k)

/-- The selection loop `for ii in range(1000)` of `weight_cdf_shuffle`, over
an explicit list of random draws (one per iteration):
`index = binary_search_weight(sums, rnd)`; `song_id = song_ids[index]`
(raising `IndexError` when out of range); `max_back = min([ii, notlast])`;
`if notlast == 0: pass elif song_id in selected_tracks[-max_back:]: continue`;
`selected_tracks.append(song_id)`. -/
def sample_loop (sums : List ℚ) (song_ids : List String) (notlast : ℕ) :
    List ℚ → ℕ → List String → Except String (List String)
  | [], _, selected_tracks => .ok selected_tracks
  | rnd :: rest, ii, selected_tracks =>
    let index := binary_search_weight sums rnd
    match song_ids[index]? with
    | none => .error "IndexError"
    | some song_id =>
      if notlast = 0 then
        sample_loop sums song_ids notlast rest (ii + 1) (selected_tracks ++ [song_id])
      else if song_id ∈ py_slice_last selected_tracks (min ii notlast) then
        sample_loop sums song_ids notlast rest (ii + 1) selected_tracks
      else
        sample_loop sums song_ids notlast rest (ii + 1) (selected_tracks ++ [song_id])

/-- The sampling phase of `weight_cdf_shuffle` given the normalized
cumulative table and the identifier sequence: the loop starting from
`ii = 0` and `selected_tracks = []`. -/
def weight_cdf_shuffle_loop (sums : List ℚ) (song_ids : List String)
    (notlast : ℕ) (draws : List ℚ) : Except String (List String) :=
  sample_loop sums song_ids notlast draws 0 []

/-- The number of draws the loop discards by the cooldown `continue` branch
(mirrors `sample_loop` branch for branch). -/
def sample_loop_skips (sums : List ℚ) (song_ids : List String) (notlast : ℕ) :
    List ℚ → ℕ → List String → ℕ
  | [], _, _ => 0
  | rnd :: rest, ii, selected_tracks =>
    let index := binary_search_weight sums rnd
    match song_ids[index]? with
    | none => 0
    | some song_id =>
      if notlast = 0 then
        sample_loop_skips sums song_ids notlast rest (ii + 1) (selected_tracks ++ [song_id])
      else if song_id ∈ py_slice_last selected_tracks (min ii notlast) then
        sample_loop_skips sums song_ids notlast rest (ii + 1) selected_tracks + 1
      else
        sample_loop_skips sums song_ids notlast rest (ii + 1) (selected_tracks ++ [song_id])

/-- `weight_cdf_shuffle(fun, notlast, kwargs)` up to the selection buffer:
build the weights in catalog order, normalize (Python raising
`ZeroDivisionError` on a zero total), then run the selection loop. The final
`random.shuffle` and `[:1000]` truncation are treated at the boundary as an
arbitrary permutation followed by `List.take 1000`. -/
def weight_cdf_shuffle (songs : List (String × Song)) (wfun : Song → ℚ)
    (notlast : ℕ) (draws : List ℚ) : Except String (List String) :=
  let weights := songs.map (fun p => wfun p.2)
  let song_ids := songs.map Prod.fst
  if weights ≠ [] ∧ weights.sum = 0 then
    .error "ZeroDivisionError"
  else
    weight_cdf_shuffle_loop (build_sums weights) song_ids notlast draws

/-! ### Basic list helpers -/

lemma list_getD_eq_getElem {α : Type} (l : List α) (d : α) (i : ℕ)
    (h : i < l.length) : l.getD i d = l[i] := by
  rw [List.getD_eq_getElem?_getD, List.getElem?_eq_getElem h]
  rfl

lemma sorted_getD_mono (cw : List ℚ) (hs : cw.Sorted (· ≤ ·)) :
    ∀ i j, i ≤ j → j < cw.length → cw.getD i 0 ≤ cw.getD j 0 := by
  intro i j hij hj
  rcases eq_or_lt_of_le hij with rfl | h
  · exact le_refl _
  · have hi : i < cw.length := lt_trans h hj
    rw [list_getD_eq_getElem cw 0 i hi, list_getD_eq_getElem cw 0 j hj]
    exact List.pairwise_iff_getElem.mp hs i j hi hj h

/-! ### Correctness of `binary_search_weight` -/

/-- Loop invariant of the binary search on a monotone table: everything left
of `left` is `≤ target`, everything from `right` on is `> target`, and the
exit point keeps both properties. -/
lemma bs_go_mono_spec (cw : List ℚ) (t : ℚ)
    (hm : ∀ i j, i ≤ j → j < cw.length → cw.getD i 0 ≤ cw.getD j 0) :
    ∀ fuel left right, right - left ≤ fuel → left ≤ right → right ≤ cw.length →
      (∀ j, j < left → cw.getD j 0 ≤ t) →
      (∀ j, right ≤ j → j < cw.length → t < cw.getD j 0) →
      left ≤ bs_go cw t fuel left right ∧ bs_go cw t fuel left right ≤ right ∧
      (∀ j, j < bs_go cw t fuel left right → cw.getD j 0 ≤ t) ∧
      (∀ j, bs_go cw t fuel left right ≤ j → j < cw.length → t < cw.getD j 0) := by
  intro fuel
  induction fuel with
  | zero =>
    intro left right hfuel hlr _hrl hlow hhigh
    have heq : left = right := by omega
    subst heq
    exact ⟨le_refl _, le_refl _, hlow, fun j hj hj2 => hhigh j hj hj2⟩
  | succ fuel ih =>
    intro left right hfuel hlr hrl hlow hhigh
    by_cases hlt : left < right
    · have hmidlt : (left + right) / 2 < right := by omega
      have hmidge : left ≤ (left + right) / 2 := by omega
      by_cases ht : t < cw.getD ((left + right) / 2) 0
      · have hrec := ih left ((left + right) / 2) (by omega) hmidge
          (le_trans (le_of_lt hmidlt) hrl) hlow
          (fun j hj hj2 => lt_of_lt_of_le ht (hm _ j hj hj2))
        have hgo : bs_go cw t (fuel + 1) left right =
            bs_go cw t fuel left ((left + right) / 2) := by
          simp only [bs_go, if_pos hlt, if_pos ht]
        rw [hgo]
        exact ⟨hrec.1, le_trans hrec.2.1 (le_of_lt hmidlt), hrec.2.2⟩
      · have hle : cw.getD ((left + right) / 2) 0 ≤ t := le_of_not_lt ht
        have hmidlen : (left + right) / 2 < cw.length := lt_of_lt_of_le hmidlt hrl
        have hrec := ih ((left + right) / 2 + 1) right (by omega) (by omega) hrl
          (fun j hj => le_trans (hm j _ (by omega) hmidlen) hle) hhigh
        have hgo : bs_go cw t (fuel + 1) left right =
            bs_go cw t fuel ((left + right) / 2 + 1) right := by
          simp only [bs_go, if_pos hlt, if_neg ht]
        rw [hgo]
        exact ⟨le_trans (by omega) hrec.1, hrec.2⟩
    · have heq : left = right := by omega
      have hgo : bs_go cw t (fuel + 1) left right = left := by
        simp only [bs_go, if_neg hlt]
      rw [hgo]
      subst heq
      exact ⟨le_refl _, le_refl _, hlow, fun j hj hj2 => hhigh j hj hj2⟩

/-- `binary_search_weight` on a non-decreasing table returns the leftmost
index whose entry is strictly greater than the target (the list's length when
no such index exists). -/
lemma binary_search_weight_spec (cw : List ℚ) (t : ℚ)
    (hm : ∀ i j, i ≤ j → j < cw.length → cw.getD i 0 ≤ cw.getD j 0) :
    binary_search_weight cw t ≤ cw.length ∧
    (∀ j, j < binary_search_weight cw t → cw.getD j 0 ≤ t) ∧
    (binary_search_weight cw t < cw.length →
      t < cw.getD (binary_search_weight cw t) 0) := by
  have h := bs_go_mono_spec cw t hm cw.length 0 cw.length (by omega) (by omega)
    (le_refl _) (fun j hj => absurd hj (Nat.not_lt_zero j))
    (fun j hj hj2 => absurd (lt_of_le_of_lt hj hj2) (lt_irrefl _))
  exact ⟨h.2.1, h.2.2.1, fun hlt => h.2.2.2 _ (le_refl _) hlt⟩

/-- Without any monotonicity assumption: if every in-range entry is `≤ target`
then the search returns `right` (all probes move `left`). -/
lemma bs_go_all_le (cw : List ℚ) (t : ℚ)
    (hall : ∀ j, j < cw.length → cw.getD j 0 ≤ t) :
    ∀ fuel left right, right - left ≤ fuel → left ≤ right → right ≤ cw.length →
      bs_go cw t fuel left right = right := by
  intro fuel
  induction fuel with
  | zero =>
    intro left right hfuel hlr _
    have : left = right := by omega
    simpa [bs_go] using this
  | succ fuel ih =>
    intro left right hfuel hlr hrl
    by_cases hlt : left < right
    · have hmidlen : (left + right) / 2 < cw.length := by omega
      have ht : ¬ t < cw.getD ((left + right) / 2) 0 :=
        not_lt_of_le (hall _ hmidlen)
      have hgo : bs_go cw t (fuel + 1) left right =
          bs_go cw t fuel ((left + right) / 2 + 1) right := by
        simp only [bs_go, if_pos hlt, if_neg ht]
      rw [hgo]
      exact ih _ right (by omega) (by omega) hrl
    · have : left = right := by omega
      simpa [bs_go, if_neg hlt] using this

/-- Without any monotonicity assumption: if the final entry is strictly
greater than the target, the search's result is in range. The invariant is
that `left` only ever moves just past a probed entry that was `≤ target`, so
the loop cannot close at `length` when the last entry is `> target`. -/
lemma bs_go_lt_length (cw : List ℚ) (t : ℚ) :
    ∀ fuel left right, right - left ≤ fuel → left ≤ right → right ≤ cw.length →
      (0 < left → cw.getD (left - 1) 0 ≤ t) →
      (right = cw.length → 0 < cw.length ∧ t < cw.getD (cw.length - 1) 0) →
      bs_go cw t fuel left right < cw.length := by
  intro fuel
  induction fuel with
  | zero =>
    intro left right hfuel hlr hrl hleft hright
    have heq : left = right := by omega
    subst heq
    show bs_go cw t 0 left left < cw.length
    rcases lt_or_eq_of_le hrl with h | h
    · simpa [bs_go] using h
    · rcases hright h with ⟨hpos, hlast⟩
      have : cw.getD (cw.length - 1) 0 ≤ t := by
        have := hleft (h ▸ hpos)
        rwa [h] at this
      exact absurd hlast (not_lt_of_le this)
  | succ fuel ih =>
    intro left right hfuel hlr hrl hleft hright
    by_cases hlt : left < right
    · have hmidlt : (left + right) / 2 < right := by omega
      by_cases ht : t < cw.getD ((left + right) / 2) 0
      · have hgo : bs_go cw t (fuel + 1) left right =
            bs_go cw t fuel left ((left + right) / 2) := by
          simp only [bs_go, if_pos hlt, if_pos ht]
        rw [hgo]
        exact ih left _ (by omega) (by omega)
          (le_trans (le_of_lt hmidlt) hrl) hleft
          (fun h => absurd (h ▸ lt_of_lt_of_le hmidlt hrl) (lt_irrefl _))
      · have hgo : bs_go cw t (fuel + 1) left right =
            bs_go cw t fuel ((left + right) / 2 + 1) right := by
          simp only [bs_go, if_pos hlt, if_neg ht]
        rw [hgo]
        refine ih _ right (by omega) (by omega) hrl (fun _ => ?_) hright
        simpa using le_of_not_lt ht
    · have hgo : bs_go cw t (fuel + 1) left right = left := by
        simp only [bs_go, if_neg hlt]
      rw [hgo]
      have heq : left = right := by omega
      subst heq
      rcases lt_or_eq_of_le hrl with h | h
      · exact h
      · rcases hright h with ⟨hpos, hlast⟩
        have : cw.getD (cw.length - 1) 0 ≤ t := by
          have := hleft (h ▸ hpos)
          rwa [h] at this
        exact absurd hlast (not_lt_of_le this)

/-! ### The cumulative distribution `build_sums` -/

lemma scanl_add_getD (ws : List ℚ) :
    ∀ (a : ℚ) (i : ℕ), i ≤ ws.length →
      (List.scanl (· + ·) a ws).getD i 0 = a + (ws.take i).sum := by
  induction ws with
  | nil =>
    intro a i hi
    have : i = 0 := by simpa using hi
    subst this
    simp [List.scanl]
  | cons w ws ih =>
    intro a i hi
    cases i with
    | zero => simp [List.scanl]
    | succ i =>
      have : (List.scanl (· + ·) a (w :: ws)).getD (i + 1) 0 =
          (List.scanl (· + ·) (a + w) ws).getD i 0 := by
        simp [List.scanl, List.getD_cons_succ]
      rw [this, ih (a + w) i (by simpa using hi)]
      simp [List.take_cons]
      ring

lemma build_sums_length (ws : List ℚ) : (build_sums ws).length = ws.length := by
  simp [build_sums, List.length_scanl]

lemma build_sums_getD (ws : List ℚ) (i : ℕ) (hi : i < ws.length) :
    (build_sums ws).getD i 0 = (ws.take (i + 1)).sum / ws.sum := by
  have hlen : i < (build_sums ws).length := by rwa [build_sums_length]
  rw [list_getD_eq_getElem _ 0 i hlen]
  have hlen2 : i < (((List.scanl (· + ·) 0 ws).drop 1).map
      (fun s => s / ws.sum)).length := by
    simpa [build_sums] using hlen
  show (((List.scanl (· + ·) 0 ws).drop 1).map (fun s => s / ws.sum))[i] =
    (ws.take (i + 1)).sum / ws.sum
  rw [List.getElem_map]
  have hdl : i < ((List.scanl (· + ·) 0 ws).drop 1).length := by
    simpa using hlen2
  rw [List.getElem_drop]
  have hsc : 1 + i < (List.scanl (· + ·) 0 ws).length := by
    rw [List.length_scanl]; omega
  have := scanl_add_getD ws 0 (1 + i) (by omega)
  rw [list_getD_eq_getElem _ 0 (1 + i) hsc] at this
  rw [this]
  rw [show 1 + i = i + 1 by omega]
  simp

lemma take_sum_nonneg (ws : List ℚ) (h0 : ∀ w ∈ ws, 0 ≤ w) (i : ℕ) :
    0 ≤ (ws.take i).sum :=
  List.sum_nonneg (fun w hw => h0 w (List.mem_of_mem_take hw))

lemma take_sum_mono (ws : List ℚ) (h0 : ∀ w ∈ ws, 0 ≤ w) :
    ∀ i j, i ≤ j → (ws.take i).sum ≤ (ws.take j).sum := by
  intro i j hij
  induction j with
  | zero =>
    have : i = 0 := by omega
    simp [this]
  | succ j ihj =>
    rcases Nat.lt_or_ge i (j + 1) with h | h
    · have hstep : (ws.take j).sum ≤ (ws.take (j + 1)).sum := by
        rcases Nat.lt_or_ge j ws.length with hj | hj
        · rw [List.sum_take_succ ws j hj]
          have : 0 ≤ ws[j] := h0 _ (List.getElem_mem hj)
          linarith
        · rw [List.take_of_length_le hj, List.take_of_length_le (by omega)]
      exact le_trans (ihj (by omega)) hstep
    · have : i = j + 1 := by omega
      simp [this]

/-- Entry `i` of the cumulative table dominates entry `j ≤ i`; with the
in-range bound this is exactly monotonicity of `build_sums`. -/
lemma build_sums_mono (ws : List ℚ) (h0 : ∀ w ∈ ws, 0 ≤ w) (hS : 0 < ws.sum) :
    ∀ i j, i ≤ j → j < (build_sums ws).length →
      (build_sums ws).getD i 0 ≤ (build_sums ws).getD j 0 := by
  intro i j hij hj
  rw [build_sums_length] at hj
  rw [build_sums_getD ws i (by omega), build_sums_getD ws j hj]
  have := take_sum_mono ws h0 (i + 1) (j + 1) (by omega)
  gcongr

lemma sum_pos_of_nonneg_of_exists_pos (ws : List ℚ) (h0 : ∀ w ∈ ws, 0 ≤ w)
    (hpos : ∃ w ∈ ws, 0 < w) : 0 < ws.sum := by
  obtain ⟨w, hw, hwpos⟩ := hpos
  exact lt_of_lt_of_le hwpos (List.single_le_sum h0 w hw)

lemma build_sums_first (ws : List ℚ) (hne : 0 < ws.length) :
    (build_sums ws).getD 0 0 = ws.getD 0 0 / ws.sum := by
  rw [build_sums_getD ws 0 hne, List.sum_take_succ ws 0 hne,
    list_getD_eq_getElem ws 0 0 hne]
  simp

lemma build_sums_step (ws : List ℚ) (i : ℕ) (hi : i + 1 < ws.length) :
    (build_sums ws).getD (i + 1) 0 =
      (build_sums ws).getD i 0 + ws.getD (i + 1) 0 / ws.sum := by
  rw [build_sums_getD ws (i + 1) hi, build_sums_getD ws i (by omega),
    List.sum_take_succ ws (i + 1) hi, list_getD_eq_getElem ws 0 (i + 1) hi,
    add_div]

lemma build_sums_last (ws : List ℚ) (hne : ws ≠ []) (hS : ws.sum ≠ 0) :
    (build_sums ws).getD (ws.length - 1) 0 = 1 := by
  have hlen : 0 < ws.length := List.length_pos.mpr hne
  rw [build_sums_getD ws (ws.length - 1) (by omega),
    show ws.length - 1 + 1 = ws.length by omega, List.take_length,
    div_self hS]

/-! ### Claim theorems -/

/-- C1. `binary_search_weight` on a non-decreasing cumulative table returns
the leftmost index whose entry is strictly greater than the target: every
index below the result has entry `≤ r`, the result itself (when in range)
has entry `> r`, and the result is a lower bound of all indices with entry
`> r`. On `[0.2, 0.5, 0.5, 1.0]` with `r = 0.5` it returns `3`; on
`[0.3, 1.0]` it returns `0` for `r = 0`, `1` for `r = 0.999` (just below
`1.0`), and `1` for `r = 0.3` exactly. -/
theorem spec_c1 (cw : List ℚ) (r : ℚ) (hs : cw.Sorted (· ≤ ·)) :
    ((binary_search_weight cw r < cw.length →
        r < cw.getD (binary_search_weight cw r) 0) ∧
      (∀ j, j < binary_search_weight cw r → cw.getD j 0 ≤ r) ∧
      (∀ i, i < cw.length → r < cw.getD i 0 → binary_search_weight cw r ≤ i)) ∧
    binary_search_weight [1/5, 1/2, 1/2, 1] (1/2) = 3 ∧
    binary_search_weight [3/10, 1] 0 = 0 ∧
    binary_search_weight [3/10, 1] (999/1000) = 1 ∧
    binary_search_weight [3/10, 1] (3/10) = 1 := by
  have h := binary_search_weight_spec cw r (sorted_getD_mono cw hs)
  refine ⟨⟨h.2.2, h.2.1, fun i hi hri => ?_⟩, ?_, ?_, ?_, ?_⟩
  · by_contra hcon
    exact absurd (h.2.1 i (by omega)) (not_le_of_lt hri)
  · norm_num [binary_search_weight, bs_go]
  · norm_num [binary_search_weight, bs_go]
  · norm_num [binary_search_weight, bs_go]
  · norm_num [binary_search_weight, bs_go]

theorem spec_c1_witness :
    List.Sorted (· ≤ ·) [(1:ℚ), 2] ∧ binary_search_weight [(1:ℚ), 2] 1 ≤ 1 :=
  ⟨by decide, (spec_c1 [1, 2] 1 (by decide)).1.2.2 1 (by decide) (by decide)⟩

/-- C4. For non-negative weights with at least one positive weight, the
cumulative distribution has the catalog's length, is non-decreasing, is
strictly increasing at every index whose weight is positive, and ends
exactly at `1` (rational arithmetic makes the floating-point tolerance
exact). -/
theorem spec_c4 (ws : List ℚ) (h0 : ∀ w ∈ ws, 0 ≤ w)
    (hpos : ∃ w ∈ ws, 0 < w) :
    (build_sums ws).length = ws.length ∧
    (∀ i j, i ≤ j → j < (build_sums ws).length →
      (build_sums ws).getD i 0 ≤ (build_sums ws).getD j 0) ∧
    (0 < ws.getD 0 0 → 0 < (build_sums ws).getD 0 0) ∧
    (∀ i, i + 1 < ws.length → 0 < ws.getD (i + 1) 0 →
      (build_sums ws).getD i 0 < (build_sums ws).getD (i + 1) 0) ∧
    (build_sums ws).getD (ws.length - 1) 0 = 1 := by
  have hS : 0 < ws.sum := sum_pos_of_nonneg_of_exists_pos ws h0 hpos
  have hne : ws ≠ [] := by
    obtain ⟨w, hw, _⟩ := hpos
    exact List.ne_nil_of_mem hw
  refine ⟨build_sums_length ws, build_sums_mono ws h0 hS, ?_, ?_, ?_⟩
  · intro hw0
    rw [build_sums_first ws (List.length_pos.mpr hne)]
    positivity
  · intro i hi hwi
    rw [build_sums_step ws i hi]
    have : 0 < ws.getD (i + 1) 0 / ws.sum := by positivity
    linarith
  · exact build_sums_last ws hne (ne_of_gt hS)

theorem spec_c4_witness :
    (build_sums [(1:ℚ), 0, 1]).length = 3 ∧
    (build_sums [(1:ℚ), 0, 1]).getD 2 0 = 1 :=
  ⟨(spec_c4 [1, 0, 1] (by decide) (by decide)).1,
    (spec_c4 [1, 0, 1] (by decide) (by decide)).2.2.2.2⟩

/-- C8. If the cumulative table is non-empty and its last entry exceeds the
target, the search result is in range, so a parallel identifier list of the
same length has an entry there; if instead the target dominates every entry
(in particular for the empty table) the result is the table's length, which
is out of range for the identifier list. Neither half assumes
monotonicity. -/
theorem spec_c8 (cw : List ℚ) (song_ids : List String) (r : ℚ) :
    (cw ≠ [] → r < cw.getD (cw.length - 1) 0 →
      binary_search_weight cw r < cw.length ∧
      (song_ids.length = cw.length →
        (song_ids[binary_search_weight cw r]?).isSome)) ∧
    ((∀ j, j < cw.length → cw.getD j 0 ≤ r) →
      binary_search_weight cw r = cw.length ∧
      (song_ids.length = cw.length →
        song_ids[binary_search_weight cw r]? = none)) ∧
    binary_search_weight [] r = 0 := by
  refine ⟨?_, ?_, rfl⟩
  · intro hne hlast
    have hlen : 0 < cw.length := List.length_pos.mpr hne
    have hlt : binary_search_weight cw r < cw.length :=
      bs_go_lt_length cw r cw.length 0 cw.length (by omega) (by omega)
        (le_refl _) (fun h => absurd h (by omega)) (fun _ => ⟨hlen, hlast⟩)
    refine ⟨hlt, fun hlen2 => ?_⟩
    rw [List.getElem?_eq_getElem (by omega)]
    rfl
  · intro hall
    have heq : binary_search_weight cw r = cw.length :=
      bs_go_all_le cw r hall cw.length 0 cw.length (by omega) (by omega)
        (le_refl _)
    exact ⟨heq, fun hlen2 => List.getElem?_eq_none (by omega)⟩

theorem spec_c8_witness :
    (binary_search_weight [(1:ℚ), 2] 0 < 2 ∧
      (["a", "b"][binary_search_weight [(1:ℚ), 2] 0]?).isSome) ∧
    binary_search_weight [(1:ℚ), 2] 5 = 2 :=
  ⟨by
    have h := (spec_c8 [(1:ℚ), 2] ["a", "b"] 0).1 (by decide) (by decide)
    exact ⟨h.1, h.2 rfl⟩,
    ((spec_c8 [(1:ℚ), 2] ["a", "b"] 5).2.1 (by decide)).1⟩

/-- C5. A zero-weight track is never selected: for non-negative weights with
a positive total, any index holding weight `0` is never returned by the
binary search over the cumulative distribution, for any draw `r ≥ 0`
(deterministically — independent of how many draws are made). -/
theorem spec_c5 (ws : List ℚ) (i : ℕ) (r : ℚ) (h0 : ∀ w ∈ ws, 0 ≤ w)
    (hpos : ∃ w ∈ ws, 0 < w) (hi : i < ws.length) (hw : ws.getD i 0 = 0)
    (hr : 0 ≤ r) : binary_search_weight (build_sums ws) r ≠ i := by
  have hS : 0 < ws.sum := sum_pos_of_nonneg_of_exists_pos ws h0 hpos
  have h := binary_search_weight_spec (build_sums ws) r
    (build_sums_mono ws h0 hS)
  intro heq
  have hilen : i < (build_sums ws).length := by rwa [build_sums_length]
  have hires : r < (build_sums ws).getD i 0 := by
    have := h.2.2 (heq ▸ hilen)
    rwa [heq] at this
  cases i with
  | zero =>
    rw [build_sums_first ws (by omega), hw, zero_div] at hires
    exact absurd hr (not_le_of_lt hires)
  | succ k =>
    have hklt : k < binary_search_weight (build_sums ws) r := by omega
    have hkle : (build_sums ws).getD k 0 ≤ r := h.2.1 k hklt
    rw [build_sums_step ws k hi, hw, zero_div, add_zero] at hires
    exact absurd (lt_of_lt_of_le hires hkle) (lt_irrefl r)

theorem spec_c5_witness :
    binary_search_weight (build_sums [(1:ℚ), 0, 1]) 0 ≠ 1 :=
  spec_c5 [1, 0, 1] 1 0 (by decide) (by decide) (by decide) (by decide)
    (by decide)

/-- C7 counterexample. The claim reads the bonus condition as "holds the
maximum rating of the 1–10 scale": for a track with `stars = 10` (the
maximum of the scale declared by the source's `# Default rating 1-10`)
added `0` days ago with `days_back = 10` and `weight_day = 1`, the claim
predicts `exp_star + 10`, but `exp_star_recent` tests `song.stars == 5` and
returns plain `exp_star`. -/
theorem spec_c7_cex :
    exp_star_recent ⟨10, 0⟩ 2 10 1 = exp_star ⟨10, 0⟩ 2 ∧
    exp_star_recent ⟨10, 0⟩ 2 10 1 ≠
      exp_star ⟨10, 0⟩ 2 + ((10 - 0 : ℤ) : ℚ) * 1 := by
  constructor
  · norm_num [exp_star_recent]
  · norm_num [exp_star_recent, exp_star]

/-- C7 (amended). `exp_star_recent` equals `exp_star` unless the track's
rating is exactly `5` — the value the code's `song.stars == 5` test singles
out, which is the scale's default/midpoint, not the maximum `10` — and its
age in whole days is strictly below `days_back`, in which case the linear
bonus `(days_back - age) * weight_day` is added; with `days_back = 10` and
`weight_day = 1`, a `stars = 5` track aged `0` gains `10`, aged exactly `10`
gains `0`, and aged `11` gains nothing. -/
theorem spec_c7 (song : Song) (b : ℚ) (days_back : ℤ) (weight_day : ℚ) :
    (song.stars ≠ 5 →
      exp_star_recent song b days_back weight_day = exp_star song b) ∧
    (days_back ≤ song.ageDays →
      exp_star_recent song b days_back weight_day = exp_star song b) ∧
    (song.stars = 5 → song.ageDays < days_back →
      exp_star_recent song b days_back weight_day =
        exp_star song b + ((days_back - song.ageDays : ℤ) : ℚ) * weight_day) ∧
    exp_star_recent ⟨5, 0⟩ b 10 1 = exp_star ⟨5, 0⟩ b + 10 ∧
    exp_star_recent ⟨5, 10⟩ b 10 1 = exp_star ⟨5, 10⟩ b + 0 ∧
    exp_star_recent ⟨5, 11⟩ b 10 1 = exp_star ⟨5, 11⟩ b := by
  refine ⟨?_, ?_, ?_, ?_, ?_, ?_⟩
  · intro h
    simp [exp_star_recent, h]
  · intro h
    rw [exp_star_recent, if_neg]
    rintro ⟨-, hlt⟩
    omega
  · intro h5 hlt
    rw [exp_star_recent, if_pos ⟨h5, hlt⟩]
  · norm_num [exp_star_recent]
  · norm_num [exp_star_recent]
  · norm_num [exp_star_recent]

theorem spec_c7_witness :
    exp_star_recent ⟨5, 3⟩ 2 10 1 =
      exp_star ⟨5, 3⟩ 2 + ((10 - 3 : ℤ) : ℚ) * 1 :=
  (spec_c7 ⟨5, 3⟩ 2 10 1).2.2.1 rfl (by decide)

/-- C9. For a positive base and non-negative recency parameters, both weight
functions return strictly positive values on every track, so a catalog's
weight total under either function is positive (never zero) whenever the
catalog is non-empty. -/
theorem spec_c9 (song : Song) (b : ℚ) (days_back : ℤ) (weight_day : ℚ)
    (hb : 0 < b) (_hrd : 0 ≤ days_back) (hwd : 0 ≤ weight_day) :
    0 < exp_star song b ∧
    0 < exp_star_recent song b days_back weight_day ∧
    (∀ songs : List Song, songs ≠ [] →
      0 < (songs.map (fun s => exp_star s b)).sum ∧
      0 < (songs.map (fun s => exp_star_recent s b days_back weight_day)).sum) := by
  have hexp : ∀ s : Song, 0 < exp_star s b := fun s => zpow_pos hb _
  have hrec : ∀ s : Song, 0 < exp_star_recent s b days_back weight_day := by
    intro s
    rw [exp_star_recent]
    split
    · rename_i hcond
      have hbonus : (0:ℚ) ≤ ((days_back - s.ageDays : ℤ) : ℚ) * weight_day := by
        apply mul_nonneg _ hwd
        have : (0:ℤ) ≤ days_back - s.ageDays := by omega
        exact_mod_cast this
      have := hexp s
      linarith
    · exact hexp s
  refine ⟨hexp song, hrec song, fun songs hne => ⟨?_, ?_⟩⟩
  · refine List.sum_pos _ (fun x hx => ?_) (by simpa using hne)
    obtain ⟨s, _, rfl⟩ := List.mem_map.mp hx
    exact hexp s
  · refine List.sum_pos _ (fun x hx => ?_) (by simpa using hne)
    obtain ⟨s, _, rfl⟩ := List.mem_map.mp hx
    exact hrec s

theorem spec_c9_witness :
    0 < exp_star ⟨1, 0⟩ 2 ∧ 0 < exp_star_recent ⟨1, 0⟩ 2 365 1 :=
  ⟨(spec_c9 ⟨1, 0⟩ 2 365 1 (by decide) (by decide) (by decide)).1,
    (spec_c9 ⟨1, 0⟩ 2 365 1 (by decide) (by decide) (by decide)).2.1⟩

/-! ### The sampling loop -/

lemma getD_drop (l : List String) (m j : ℕ) :
    (l.drop m).getD j "" = l.getD (m + j) "" := by
  rw [List.getD_eq_getElem?_getD, List.getD_eq_getElem?_getD,
    List.getElem?_drop]

lemma getD_append_left (l₁ l₂ : List String) (m : ℕ) (hm : m < l₁.length) :
    (l₁ ++ l₂).getD m "" = l₁.getD m "" := by
  rw [list_getD_eq_getElem _ "" m (by rw [List.length_append]; omega),
    list_getD_eq_getElem _ "" m hm, List.getElem_append_left]

lemma getD_append_last (l : List String) (s : String) :
    (l ++ [s]).getD l.length "" = s := by
  rw [list_getD_eq_getElem _ "" l.length (by simp)]
  rw [List.getElem_append_right (le_refl _)]
  simp

/-- An entry of the selection buffer whose index is within the last `k`
positions belongs to Python's slice `selected_tracks[-k:]`. -/
lemma getD_mem_py_slice_last (l : List String) (k i : ℕ) (hi : i < l.length)
    (hk : l.length ≤ k + i) : l.getD i "" ∈ py_slice_last l k := by
  rw [py_slice_last]
  split
  · rw [list_getD_eq_getElem _ "" i hi]
    exact List.getElem_mem hi
  · have h1 : l.getD i "" = (l.drop (l.length - k)).getD (i - (l.length - k)) "" := by
      rw [getD_drop]
      congr 1
      omega
    have h2 : i - (l.length - k) < (l.drop (l.length - k)).length := by
      rw [List.length_drop]
      omega
    rw [h1, list_getD_eq_getElem _ "" _ h2]
    exact List.getElem_mem h2

/-- Cooldown invariant of the loop: if no two entries of the buffer within
distance `K` coincide and the buffer is no longer than the attempt counter,
the property persists to any buffer the loop returns. -/
lemma sample_loop_cooldown (sums : List ℚ) (song_ids : List String) (K : ℕ)
    (hK : 0 < K) :
    ∀ (draws : List ℚ) (ii : ℕ) (acc : List String), acc.length ≤ ii →
      (∀ i j, i < j → j < acc.length → j - i ≤ K →
        acc.getD i "" ≠ acc.getD j "") →
      ∀ buf, sample_loop sums song_ids K draws ii acc = .ok buf →
        ∀ i j, i < j → j < buf.length → j - i ≤ K →
          buf.getD i "" ≠ buf.getD j "" := by
  intro draws
  induction draws with
  | nil =>
    intro ii acc hlen hinv buf hok
    have : acc = buf := by simpa [sample_loop] using hok
    exact this ▸ hinv
  | cons rnd rest ih =>
    intro ii acc hlen hinv buf hok
    rw [sample_loop] at hok
    rcases hlook : song_ids[binary_search_weight sums rnd]? with _ | sid
    · rw [hlook] at hok
      exact absurd hok (by simp)
    · simp only [hlook] at hok
      rw [if_neg (by omega : ¬ K = 0)] at hok
      by_cases hmem : sid ∈ py_slice_last acc (min ii K)
      · rw [if_pos hmem] at hok
        exact ih (ii + 1) acc (by omega) hinv buf hok
      · rw [if_neg hmem] at hok
        refine ih (ii + 1) (acc ++ [sid]) (by simp; omega) ?_ buf hok
        intro i j hij hj hdist
        rw [List.length_append, List.length_singleton] at hj
        rcases Nat.lt_or_ge j acc.length with hjl | hjr
        · rw [getD_append_left _ _ i (by omega), getD_append_left _ _ j hjl]
          exact hinv i j hij hjl hdist
        · have hjeq : j = acc.length := by omega
          subst hjeq
          rw [getD_append_left _ _ i (by omega), getD_append_last]
          intro heq
          apply hmem
          rw [← heq]
          exact getD_mem_py_slice_last acc (min ii K) i (by omega) (by omega)

/-- Each loop iteration consumes one draw and appends at most one entry. -/
lemma sample_loop_ok_length (sums : List ℚ) (song_ids : List String) (K : ℕ) :
    ∀ (draws : List ℚ) (ii : ℕ) (acc buf : List String),
      sample_loop sums song_ids K draws ii acc = .ok buf →
      buf.length ≤ acc.length + draws.length := by
  intro draws
  induction draws with
  | nil =>
    intro ii acc buf hok
    have : acc = buf := by simpa [sample_loop] using hok
    simp [← this]
  | cons rnd rest ih =>
    intro ii acc buf hok
    rw [sample_loop] at hok
    rcases hlook : song_ids[binary_search_weight sums rnd]? with _ | sid
    · rw [hlook] at hok
      exact absurd hok (by simp)
    · simp only [hlook] at hok
      split_ifs at hok with h1 h2
      · have := ih (ii + 1) (acc ++ [sid]) buf hok
        simp at this
        simp
        omega
      · have := ih (ii + 1) acc buf hok
        simp
        omega
      · have := ih (ii + 1) (acc ++ [sid]) buf hok
        simp at this
        simp
        omega

/-- The loop's only failure is the out-of-range identifier lookup. -/
lemma sample_loop_err (sums : List ℚ) (song_ids : List String) (K : ℕ) :
    ∀ (draws : List ℚ) (ii : ℕ) (acc : List String) (e : String),
      sample_loop sums song_ids K draws ii acc = .error e →
      e = "IndexError" := by
  intro draws
  induction draws with
  | nil =>
    intro ii acc e herr
    exact absurd herr (by simp [sample_loop])
  | cons rnd rest ih =>
    intro ii acc e herr
    rw [sample_loop] at herr
    rcases hlook : song_ids[binary_search_weight sums rnd]? with _ | sid
    · simp only [hlook] at herr
      simp at herr
      exact herr.symm
    · simp only [hlook] at herr
      split_ifs at herr
      · exact ih (ii + 1) _ e herr
      · exact ih (ii + 1) _ e herr
      · exact ih (ii + 1) _ e herr

/-- Ok runs balance: buffer growth plus cooldown skips account for every
draw consumed. -/
lemma sample_loop_skips_eq (sums : List ℚ) (song_ids : List String) (K : ℕ) :
    ∀ (draws : List ℚ) (ii : ℕ) (acc buf : List String),
      sample_loop sums song_ids K draws ii acc = .ok buf →
      buf.length + sample_loop_skips sums song_ids K draws ii acc =
        acc.length + draws.length := by
  intro draws
  induction draws with
  | nil =>
    intro ii acc buf hok
    have : acc = buf := by simpa [sample_loop] using hok
    simp [sample_loop_skips, ← this]
  | cons rnd rest ih =>
    intro ii acc buf hok
    rw [sample_loop] at hok
    rw [sample_loop_skips]
    rcases hlook : song_ids[binary_search_weight sums rnd]? with _ | sid
    · rw [hlook] at hok
      exact absurd hok (by simp)
    · simp only [hlook] at hok ⊢
      split_ifs at hok with h1 h2
      · rw [if_pos h1]
        have := ih (ii + 1) (acc ++ [sid]) buf hok
        simp at this
        simp
        omega
      · rw [if_neg h1, if_pos h2]
        have := ih (ii + 1) acc buf hok
        simp
        omega
      · rw [if_neg h1, if_neg h2]
        have := ih (ii + 1) (acc ++ [sid]) buf hok
        simp at this
        simp
        omega

/-- On a one-track catalog with cooldown `1`, every draw after the first
collides, so the buffer stays at one entry for any number of further
draws. -/
lemma sample_loop_absorb :
    ∀ (n ii : ℕ), 1 ≤ ii →
      sample_loop [1] ["a"] 1 (List.replicate n 0) ii ["a"] = .ok ["a"] := by
  intro n
  induction n with
  | zero =>
    intro ii h
    rfl
  | succ n ih =>
    intro ii h
    rw [List.replicate_succ, sample_loop]
    have hmin : min ii 1 = 1 := by omega
    have hmem : "a" ∈ py_slice_last ["a"] (min ii 1) := by
      rw [hmin]
      simp [py_slice_last]
    simp only [show (["a"] : List String)[binary_search_weight [1] 0]? =
      some "a" from rfl]
    rw [if_neg (by omega : ¬ (1:ℕ) = 0), if_pos hmem]
    exact ih (ii + 1) (by omega)

/-- The full 1000-draw run on a one-track catalog with cooldown `1`: the
first draw selects the track, the remaining 999 draws all collide, and the
loop silently returns the one-entry buffer. -/
lemma run_1000_single :
    weight_cdf_shuffle_loop [1] ["a"] 1 (List.replicate 1000 0) =
      .ok ["a"] := by
  rw [weight_cdf_shuffle_loop, show (1000:ℕ) = 999 + 1 from rfl,
    List.replicate_succ, sample_loop]
  have hmem : ¬ "a" ∈ py_slice_last [] (min 0 1) := by
    simp [py_slice_last]
  simp only [show (["a"] : List String)[binary_search_weight [1] 0]? =
    some "a" from rfl]
  rw [if_neg (by omega : ¬ (1:ℕ) = 0), if_neg hmem]
  exact sample_loop_absorb 999 1 (le_refl 1)

/-- C2. For any positive cooldown window `K` and any draw sequence, a buffer
the sampling loop returns never holds the same identifier twice within any
window of `K` consecutive entries (indices at distance `< K` differ; the
loop in fact separates even indices at distance exactly `K`, since each new
entry is checked against the `min(ii, K)` most recent ones); with `K = 0`
the check is skipped and repeats occur, e.g. a single-track catalog drawn
twice yields the track twice. -/
theorem spec_c2 (sums : List ℚ) (song_ids : List String) (K : ℕ)
    (draws : List ℚ) (buf : List String) (hK : 0 < K)
    (hok : weight_cdf_shuffle_loop sums song_ids K draws = .ok buf) :
    (∀ i j, i < j → j < buf.length → j - i < K →
      buf.getD i "" ≠ buf.getD j "") ∧
    weight_cdf_shuffle_loop [1] ["a"] 0 [0, 0] = .ok ["a", "a"] := by
  rw [weight_cdf_shuffle_loop] at hok
  refine ⟨fun i j hij hj hd => ?_, rfl⟩
  exact sample_loop_cooldown sums song_ids K hK draws 0 [] (by simp)
    (fun i j _ hj _ => absurd hj (by simp)) buf hok i j hij hj (by omega)

theorem spec_c2_witness :
    (["a", "b"] : List String).getD 0 "" ≠
      (["a", "b"] : List String).getD 1 "" :=
  (spec_c2 [1, 2] ["a", "b"] 2 [0, 1] ["a", "b"] (by decide)
    (by rfl)).1 0 1 (by decide) (by decide) (by decide)

/-- C3 counterexample. The loop never raises an attempts-exhausted failure
carrying the count of gathered selections: on a one-track catalog with
cooldown `1`, the full 1000-draw run silently returns the one-entry buffer
`["a"]` (999 draws collided), not an `AttemptsExhausted` error as the claim
requires. -/
theorem spec_c3_cex :
    weight_cdf_shuffle_loop [1] ["a"] 1 (List.replicate 1000 0) =
      .ok ["a"] :=
  run_1000_single

/-- C3 (amended). The loop runs one iteration per draw (the source's 1000)
and then stops, whether or not the buffer reached the target: an `ok` buffer
never exceeds the draw count, a cooldown collision consumes a draw without
appending, and the only error the loop can produce is the out-of-range
lookup `IndexError` — there is no `AttemptsExhausted`; a short buffer is
returned silently. -/
theorem spec_c3 (sums : List ℚ) (song_ids : List String) (K : ℕ)
    (draws : List ℚ) :
    (∀ buf, weight_cdf_shuffle_loop sums song_ids K draws = .ok buf →
      buf.length ≤ draws.length) ∧
    (∀ e, weight_cdf_shuffle_loop sums song_ids K draws = .error e →
      e = "IndexError") := by
  constructor
  · intro buf hok
    rw [weight_cdf_shuffle_loop] at hok
    have := sample_loop_ok_length sums song_ids K draws 0 [] buf hok
    simpa using this
  · intro e herr
    rw [weight_cdf_shuffle_loop] at herr
    exact sample_loop_err sums song_ids K draws 0 [] e herr

theorem spec_c3_witness :
    (["a"] : List String).length ≤ ([0, 0] : List ℚ).length :=
  (spec_c3 [1] ["a"] 1 [0, 0]).1 ["a"] (by rfl)

/-- C6 counterexample. There is no `EmptyCatalog` or `ZeroTotalWeight`
failure: on an empty catalog the normalization performs no division and the
builder returns the empty table as ordinary output, and on an all-zero
weight vector the code does perform the division by the zero total, which
surfaces as the host language's `ZeroDivisionError` crash rather than a
`ZeroTotalWeight` failure raised before dividing. -/
theorem spec_c6_cex :
    build_sums_run [] = .ok [] ∧
    build_sums_run [0, 0] = .error "ZeroDivisionError" := by
  constructor
  · rfl
  · rw [build_sums_run, if_pos]
    exact ⟨by simp, by simp⟩

/-- C6 (amended). The builder has no error taxonomy of its own: an empty
catalog yields the empty cumulative table with no failure (the sampling
that follows then fails on its first draw with `IndexError`); a non-empty
weight vector with zero total reaches the normalization's division by zero
and crashes with `ZeroDivisionError`; any non-zero total normalizes
successfully. -/
theorem spec_c6 (ws : List ℚ) :
    build_sums_run [] = .ok [] ∧
    (ws ≠ [] → ws.sum = 0 → build_sums_run ws = .error "ZeroDivisionError") ∧
    (ws.sum ≠ 0 → build_sums_run ws = .ok (build_sums ws)) ∧
    (∀ (wfun : Song → ℚ) (K : ℕ) (rnd : ℚ) (draws : List ℚ),
      weight_cdf_shuffle [] wfun K (rnd :: draws) = .error "IndexError") := by
  refine ⟨rfl, ?_, ?_, ?_⟩
  · intro h1 h2
    rw [build_sums_run, if_pos ⟨h1, h2⟩]
  · intro h
    rw [build_sums_run, if_neg]
    rintro ⟨-, h0⟩
    exact h h0
  · intro wfun K rnd draws
    rfl

theorem spec_c6_witness :
    build_sums_run [(0:ℚ)] = .error "ZeroDivisionError" :=
  (spec_c6 [0]).2.1 (by simp) (by simp)

/-- C10. The loop makes exactly one attempt per draw — with the source's
1000 draws it terminates after 1000 attempts however many collisions occur:
a returned buffer's length plus the number of collision-skipped draws equals
1000, so the buffer holds at most 1000 entries, and the final
shuffle-then-`[:1000]` step never discards a selection: any permutation of
the buffer is left unchanged by `take 1000`. -/
theorem spec_c10 (sums : List ℚ) (song_ids : List String) (K : ℕ)
    (draws : List ℚ) (buf : List String) (hlen : draws.length = 1000)
    (hok : weight_cdf_shuffle_loop sums song_ids K draws = .ok buf) :
    buf.length + sample_loop_skips sums song_ids K draws 0 [] = 1000 ∧
    buf.length ≤ 1000 ∧
    (∀ shuffled : List String, shuffled.Perm buf →
      shuffled.take 1000 = shuffled) := by
  rw [weight_cdf_shuffle_loop] at hok
  have hbal := sample_loop_skips_eq sums song_ids K draws 0 [] buf hok
  rw [List.length_nil, hlen] at hbal
  refine ⟨by omega, by omega, fun shuffled hperm => ?_⟩
  apply List.take_of_length_le
  rw [hperm.length_eq]
  omega

theorem spec_c10_witness :
    (["a"] : List String).length ≤ 1000 :=
  (spec_c10 [1] ["a"] 1 (List.replicate 1000 0) ["a"]
    (List.length_replicate 1000 0) run_1000_single).2.1

end ManualShuffle
